import Mathlib

/-!
Shallow embedding of `chorogrid/Chorogrid.py`, class `Colorbin` (the spec's
"Binner").  Python floats are modelled as rationals (`ℚ`); a possibly-NaN
float is `Option ℚ` with `none` standing for NaN.  Code that can raise a
Python exception is modelled with `Except PyError`.
-/

deriving instance DecidableEq for Except

/-- Failure modes of the embedded code. -/
inductive PyError where
  | emptyInput      -- `min`/`max` of an empty sequence (the spec's `EmptyInputError`)
  | zeroDivision    -- division by `len(colors_in) == 0`
  | indexError      -- out-of-range list indexing
  | malformedColor  -- `int(_, 16)` failure (the spec's `MalformedColorError`)
  deriving DecidableEq, Repr

/-- Python `min(list)`: `none` on an empty list. -/
def pyMin : List ℚ → Option ℚ
  | [] => none
  | x :: xs => some (xs.foldl min x)

/-- Python `max(list)`: `none` on an empty list. -/
def pyMax : List ℚ → Option ℚ
  | [] => none
  | x :: xs => some (xs.foldl max x)

/-- Python `round` to an integer: round half to even. -/
def roundHalfEven (x : ℚ) : ℤ :=
  let n := ⌊x⌋
  let r := x - n
  if r < 1/2 then n
  else if 1/2 < r then n + 1
  else if Even n then n else n + 1

/-- Python `round(x, d)` with exact decimal semantics. -/
def pyRound (x : ℚ) (d : ℤ) : ℚ :=
  (roundHalfEven (x * 10 ^ d) : ℚ) / 10 ^ d

/-- `Colorbin._calc_fenceposts`, non-proportional branch, applied to the
    already-sorted quantity list `s`: `step = len(s)/P` (real division) and the
    post for bin `i` is `s[int(i*step)]`; since `i*(len/P)` is a non-negative
    rational, `int` truncation is `(i * s.length) / P` in natural division.
    The final post is `s[-1]`.  `P = 0` is Python's `ZeroDivisionError`;
    out-of-range indexing is an `IndexError`. -/
def fencepostsNP (s : List ℚ) (P : Nat) : Except PyError (List ℚ) :=
  if P = 0 then .error .zeroDivision
  else
    match (List.range P).mapM (fun i => s.get? (i * s.length / P)) with
    | none => .error .indexError
    | some posts =>
      match s.getLast? with
      | none => .error .indexError
      | some last => .ok (posts ++ [last])

/-- `Colorbin._calc_fenceposts`, proportional branch.  Python's `/` is real
    division, so `i < P/2` is `2*i < P` and `i == P/2` is `2*i = P`. -/
def fencepostsProp (bmin bmid bmax : ℚ) (P : Nat) : Except PyError (List ℚ) :=
  if P = 0 then .error .zeroDivision
  else
    let step_1 : ℚ := (bmid - bmin) / P * 2
    let step_2 : ℚ := (bmax - bmid) / P * 2
    .ok ((List.range (P + 1)).map fun i =>
      if 2 * i < P then bmin + i * step_1
      else if 2 * i = P then bmid
      else bmax - ((P - i : ℕ) : ℚ) * step_2)

/-- `Colorbin._calc_fenceposts`: dispatch on `proportional`, sort the
    quantities in the non-proportional branch, and round each post iff
    `self.decimals` is not `None`. -/
def calc_fenceposts (qs : List ℚ) (P : Nat) (proportional : Bool)
    (bmin bmid bmax : ℚ) (decimals : Option ℤ) : Except PyError (List ℚ) :=
  let raw := if proportional then fencepostsProp bmin bmid bmax P
             else fencepostsNP (qs.insertionSort (· ≤ ·)) P
  match raw with
  | .error e => .error e
  | .ok fp =>
    .ok (match decimals with
         | none => fp
         | some d => fp.map (fun x => pyRound x d))

/-- Inner loop of `Colorbin._calc_colors`: starting from `bin_ = 0`, for each
    `i` in `range(1, P)` set `bin_ = i` when `qty >= fenceposts[i]`. -/
def binStep (fp : List ℚ) (qty : ℚ) : List Nat → Nat → Except PyError Nat
  | [], bin => .ok bin
  | i :: is, bin =>
    match fp.get? i with
    | none => .error .indexError
    | some f => binStep fp qty is (if f ≤ qty then i else bin)

/-- The bin index `Colorbin._calc_colors` assigns to one quantity. -/
def binIndex (P : Nat) (fp : List ℚ) (qty : ℚ) : Except PyError Nat :=
  binStep fp qty (List.range' 1 (P - 1)) 0

/-- `bin_counts[bin_] += 1`. -/
def incrAt : List Nat → Nat → Except PyError (List Nat)
  | [], _ => .error .indexError
  | c :: cs, 0 => .ok ((c + 1) :: cs)
  | c :: cs, b + 1 =>
    match incrAt cs b with
    | .error e => .error e
    | .ok cs' => .ok (c :: cs')

/-- Main loop of `Colorbin._calc_colors` over the quantities, threading the
    bin-count list and accumulating `colors_out` in order. -/
def calcColorsGo (colors_in : List String) (fp : List ℚ) :
    List ℚ → List Nat → Except PyError (List String × List Nat)
  | [], counts => .ok ([], counts)
  | q :: qs, counts =>
    match binIndex colors_in.length fp q with
    | .error e => .error e
    | .ok bin =>
      match colors_in.get? bin with
      | none => .error .indexError
      | some c =>
        match incrAt counts bin with
        | .error e => .error e
        | .ok counts' =>
          match calcColorsGo colors_in fp qs counts' with
          | .error e => .error e
          | .ok (outs, final) => .ok (c :: outs, final)

/-- `Colorbin._calc_colors`: `bin_counts` starts as `[0]*len(colors_in)`. -/
def calc_colors (qs : List ℚ) (colors_in : List String) (fp : List ℚ) :
    Except PyError (List String × List Nat) :=
  calcColorsGo colors_in fp qs (List.replicate colors_in.length 0)

/-- The fields of a constructed `Colorbin` that the claims are about
    (`labels`/`fencepostlabels`, pure string formatting that cannot fail once
    `fenceposts` has at least two entries, are not modelled). -/
structure Colorbin where
  quantities : List ℚ
  colors_in : List String
  proportional : Bool
  bin_min : ℚ
  bin_mid : ℚ
  bin_max : ℚ
  decimals : Option ℤ
  fenceposts : List ℚ
  colors_out : List String
  bin_counts : List Nat
  complements : Option (List String)
  deriving DecidableEq, Repr

/-- `Colorbin.__init__`.  NaN entries (`none`) are filtered out; `min` of an
    empty list is the construction-time failure (the spec's
    `EmptyInputError`).  Line 38 of the source assigns `self.decimals = None`,
    discarding the `decimals` constructor argument, so the fencepost
    computation at construction always runs with `decimals = none`. -/
def Colorbin.init (quantities : List (Option ℚ)) (colors_in : List String)
    (proportional : Bool) (decimals : Option ℤ) : Except PyError Colorbin :=
  let qs := quantities.filterMap id
  match pyMin qs, pyMax qs with
  | some bmin, some bmax =>
    let bmid := (bmin + bmax) / 2
    match calc_fenceposts qs colors_in.length proportional bmin bmid bmax none with
    | .error e => .error e
    | .ok fp =>
      match calc_colors qs colors_in fp with
      | .error e => .error e
      | .ok (outs, counts) =>
        .ok ⟨qs, colors_in, proportional, bmin, bmid, bmax, none, fp, outs, counts, none⟩
  | _, _ => .error .emptyInput

/-- Value of one hexadecimal digit character, as accepted by Python
    `int(_, 16)`. -/
def hexDigitVal? (c : Char) : Option ℕ :=
  if '0' ≤ c ∧ c ≤ '9' then some (c.toNat - '0'.toNat)
  else if 'a' ≤ c ∧ c ≤ 'f' then some (c.toNat - 'a'.toNat + 10)
  else if 'A' ≤ c ∧ c ≤ 'F' then some (c.toNat - 'A'.toNat + 10)
  else none

/-- Hex digits after the first one, single underscores allowed between digits
    (Python integer-literal grammar), accumulating onto `acc`. -/
def hexDigitsVal : List Char → ℕ → Option ℕ
  | [], acc => some acc
  | c :: rest, acc =>
    if c = '_' then
      match rest with
      | [] => none
      | c' :: rest' =>
        match hexDigitVal? c' with
        | some v => hexDigitsVal rest' (16 * acc + v)
        | none => none
    else
      match hexDigitVal? c with
      | some v => hexDigitsVal rest (16 * acc + v)
      | none => none

/-- Strip an optional `0x`/`0X` prefix. -/
def stripHexHead (l : List Char) : List Char :=
  match l with
  | c0 :: c1 :: r => if c0 = '0' ∧ (c1 = 'x' ∨ c1 = 'X') then r else l
  | _ => l

/-- Magnitude part of Python `int(s, 16)`: optional prefix then a non-empty
    digit string. -/
def parseHexMag (r : List Char) : Option ℕ :=
  match stripHexHead r with
  | [] => none
  | c :: rest =>
    match hexDigitVal? c with
    | some v => hexDigitsVal rest v
    | none => none

/-- Python `int(s, 16)`: optional surrounding whitespace, optional sign,
    optional `0x` prefix, then hex digits. -/
def pyIntHex16 (s : List Char) : Option ℤ :=
  let t := ((s.dropWhile Char.isWhitespace).reverse.dropWhile Char.isWhitespace).reverse
  match t with
  | [] => none
  | c :: r =>
    if c = '+' then (parseHexMag r).map (fun v => (v : ℤ))
    else if c = '-' then (parseHexMag r).map (fun v => -(v : ℤ))
    else (parseHexMag (c :: r)).map (fun v => (v : ℤ))

/-- One color of `Colorbin.calc_complements`: channels are
    `int(color[1:][i:i+2], 16)` for `i in (0, 2, 4)`; any parse failure is the
    spec's `MalformedColorError`. -/
def complementOf (cutoff : ℚ) (color_below color_above : String) (color : String) :
    Except PyError String :=
  match pyIntHex16 ((color.data.drop 1).take 2),
        pyIntHex16 (((color.data.drop 1).drop 2).take 2),
        pyIntHex16 (((color.data.drop 1).drop 4).take 2) with
  | some r, some g, some b =>
    .ok (if ((299 : ℚ)/1000 * (r : ℚ) + (587 : ℚ)/1000 * (g : ℚ)
        + (114 : ℚ)/1000 * (b : ℚ)) / 256 < cutoff then color_below
      else color_above)
  | _, _, _ => .error .malformedColor

/-- `Colorbin.calc_complements` over the current `colors_out`. -/
def calc_complements (colors_out : List String) (cutoff : ℚ)
    (color_below color_above : String) : Except PyError (List String) :=
  colors_out.mapM (complementOf cutoff color_below color_above)

/-- Spec-side bin rule: the largest `i` in `[1, P-1]` with
    `fenceposts[i] ≤ q`, defaulting to `0` when none qualifies. -/
def binIndexSpec (P : Nat) (fp : List ℚ) (q : ℚ) : Nat :=
  Nat.findGreatest (fun i => fp.getD i 0 ≤ q) (P - 1)

/-- Spec-side well-formedness: a 7-character `#RRGGBB` hex color. -/
def wellFormedColor (s : String) : Bool :=
  s.data.length == 7 && s.data.head? == some '#'
    && (s.data.drop 1).all (fun c => (hexDigitVal? c).isSome)

/-- Spec-side channel decode of a well-formed color: two hex digits each. -/
def specChannel (s : String) (k : Nat) : ℕ :=
  16 * ((hexDigitVal? (s.data.getD (2*k+1) '0')).getD 0)
    + ((hexDigitVal? (s.data.getD (2*k+2) '0')).getD 0)

/-- Spec-side luminance `(0.299*R + 0.587*G + 0.114*B) / 256`. -/
def specLum (s : String) : ℚ :=
  ((299 : ℚ)/1000 * (specChannel s 0 : ℚ) + (587 : ℚ)/1000 * (specChannel s 1 : ℚ)
    + (114 : ℚ)/1000 * (specChannel s 2 : ℚ)) / 256

/-! ### Basic facts about `pyMin` / `pyMax` -/

theorem foldl_min_spec (l : List ℚ) (a : ℚ) :
    (l.foldl min a = a ∨ l.foldl min a ∈ l) ∧ l.foldl min a ≤ a ∧
      ∀ x ∈ l, l.foldl min a ≤ x := by
  induction l generalizing a with
  | nil => simp
  | cons x xs ih =>
    simp only [List.foldl_cons, List.mem_cons]
    obtain ⟨h1, h2, h3⟩ := ih (min a x)
    refine ⟨?_, le_trans h2 (min_le_left a x), ?_⟩
    · rcases h1 with h | h
      · rcases min_choice a x with hm | hm
        · exact Or.inl (h.trans hm)
        · exact Or.inr (Or.inl (h.trans hm))
      · exact Or.inr (Or.inr h)
    · rintro y (rfl | hy)
      · exact le_trans h2 (min_le_right a y)
      · exact h3 y hy

theorem foldl_max_spec (l : List ℚ) (a : ℚ) :
    (l.foldl max a = a ∨ l.foldl max a ∈ l) ∧ a ≤ l.foldl max a ∧
      ∀ x ∈ l, x ≤ l.foldl max a := by
  induction l generalizing a with
  | nil => simp
  | cons x xs ih =>
    simp only [List.foldl_cons, List.mem_cons]
    obtain ⟨h1, h2, h3⟩ := ih (max a x)
    refine ⟨?_, le_trans (le_max_left a x) h2, ?_⟩
    · rcases h1 with h | h
      · rcases max_choice a x with hm | hm
        · exact Or.inl (h.trans hm)
        · exact Or.inr (Or.inl (h.trans hm))
      · exact Or.inr (Or.inr h)
    · rintro y (rfl | hy)
      · exact le_trans (le_max_right a y) h2
      · exact h3 y hy

theorem pyMin_spec {l : List ℚ} {m : ℚ} (h : pyMin l = some m) :
    m ∈ l ∧ ∀ x ∈ l, m ≤ x := by
  cases l with
  | nil => simp [pyMin] at h
  | cons x xs =>
    simp only [pyMin, Option.some.injEq] at h
    subst h
    obtain ⟨h1, h2, h3⟩ := foldl_min_spec xs x
    refine ⟨?_, ?_⟩
    · rcases h1 with h | h
      · rw [h]; exact List.mem_cons_self x xs
      · exact List.mem_cons_of_mem x h
    · intro y hy
      rcases List.mem_cons.mp hy with rfl | hy
      · exact h2
      · exact h3 y hy

theorem pyMax_spec {l : List ℚ} {m : ℚ} (h : pyMax l = some m) :
    m ∈ l ∧ ∀ x ∈ l, x ≤ m := by
  cases l with
  | nil => simp [pyMax] at h
  | cons x xs =>
    simp only [pyMax, Option.some.injEq] at h
    subst h
    obtain ⟨h1, h2, h3⟩ := foldl_max_spec xs x
    refine ⟨?_, ?_⟩
    · rcases h1 with h | h
      · rw [h]; exact List.mem_cons_self x xs
      · exact List.mem_cons_of_mem x h
    · intro y hy
      rcases List.mem_cons.mp hy with rfl | hy
      · exact h2
      · exact h3 y hy

theorem pyMin_isSome {l : List ℚ} (h : l ≠ []) : ∃ m, pyMin l = some m := by
  cases l with
  | nil => exact absurd rfl h
  | cons x xs => exact ⟨xs.foldl min x, rfl⟩

theorem pyMax_isSome {l : List ℚ} (h : l ≠ []) : ∃ m, pyMax l = some m := by
  cases l with
  | nil => exact absurd rfl h
  | cons x xs => exact ⟨xs.foldl max x, rfl⟩

theorem pyMin_eq_of {l : List ℚ} {m : ℚ} (hm : m ∈ l) (hlb : ∀ x ∈ l, m ≤ x) :
    pyMin l = some m := by
  obtain ⟨m', hm'⟩ := pyMin_isSome (List.ne_nil_of_mem hm)
  obtain ⟨hmem, hlb'⟩ := pyMin_spec hm'
  rw [hm', le_antisymm (hlb m' hmem) (hlb' m hm)]

theorem pyMax_eq_of {l : List ℚ} {m : ℚ} (hm : m ∈ l) (hub : ∀ x ∈ l, x ≤ m) :
    pyMax l = some m := by
  obtain ⟨m', hm'⟩ := pyMax_isSome (List.ne_nil_of_mem hm)
  obtain ⟨hmem, hub'⟩ := pyMax_spec hm'
  rw [hm', le_antisymm (hub' m hm) (hub m' hmem)]

/-! ### Sorted lists: indexed order facts -/

theorem sorted_getD_mono {s : List ℚ} (hs : s.Sorted (· ≤ ·)) {i j : ℕ}
    (hij : i ≤ j) (hj : j < s.length) : s.getD i 0 ≤ s.getD j 0 := by
  rcases Nat.eq_or_lt_of_le hij with rfl | hlt
  · exact le_refl _
  · have hi : i < s.length := lt_trans hlt hj
    have h := List.pairwise_iff_getElem.mp hs i j hi hj hlt
    simpa [List.getD_eq_getElem?_getD, List.getElem?_eq_getElem, hi, hj] using h

theorem sorted_distinct_getD_lt {s : List ℚ} (hs : s.Sorted (· ≤ ·))
    (hd : s.Pairwise (· ≠ ·)) {i j : ℕ} (hij : i < j) (hj : j < s.length) :
    s.getD i 0 < s.getD j 0 := by
  have hi : i < s.length := lt_trans hij hj
  have hle := sorted_getD_mono hs (le_of_lt hij) hj
  have hne := List.pairwise_iff_getElem.mp hd i j hi hj hij
  refine lt_of_le_of_ne hle ?_
  simpa [List.getD_eq_getElem?_getD, List.getElem?_eq_getElem, hi, hj] using hne

theorem sorted_distinct_getD_le_iff {s : List ℚ} (hs : s.Sorted (· ≤ ·))
    (hd : s.Pairwise (· ≠ ·)) {i j : ℕ} (hi : i < s.length) (hj : j < s.length) :
    s.getD i 0 ≤ s.getD j 0 ↔ i ≤ j := by
  constructor
  · intro h
    by_contra hij
    exact absurd h (not_le_of_lt (sorted_distinct_getD_lt hs hd (Nat.lt_of_not_le hij) hi))
  · intro h
    exact sorted_getD_mono hs h hj

theorem mem_le_getLast {s : List ℚ} (hs : s.Sorted (· ≤ ·)) {x : ℚ} (hx : x ∈ s) :
    x ≤ s.getLast (List.ne_nil_of_mem hx) := by
  obtain ⟨i, hi, rfl⟩ := List.mem_iff_getElem.mp hx
  have hlen : 0 < s.length := Nat.lt_of_le_of_lt (Nat.zero_le i) hi
  have hsub : s.length - 1 < s.length := Nat.sub_lt hlen Nat.one_pos
  have h := sorted_getD_mono hs (show i ≤ s.length - 1 by omega) hsub
  rw [List.getLast_eq_getElem]
  simpa [List.getD_eq_getElem?_getD, List.getElem?_eq_getElem hi,
    List.getElem?_eq_getElem hsub] using h

/-- The head of a sorted permutation of `l` is `min(l)`. -/
theorem sorted_head_eq_pyMin {s l : List ℚ} (hs : s.Sorted (· ≤ ·))
    (hp : s.Perm l) (hne : l ≠ []) : s.head? = pyMin l := by
  cases s with
  | nil => exact absurd hp.symm.eq_nil hne
  | cons a t =>
    rw [List.head?_cons, pyMin_eq_of (hp.mem_iff.mp (List.mem_cons_self a t))]
    intro x hx
    rcases List.mem_cons.mp (hp.mem_iff.mpr hx) with rfl | hxt
    · exact le_refl _
    · exact List.rel_of_sorted_cons hs x hxt

/-- The last entry of a sorted permutation of `l` is `max(l)`. -/
theorem sorted_getLast_eq_pyMax {s l : List ℚ} (hs : s.Sorted (· ≤ ·))
    (hp : s.Perm l) (hne : l ≠ []) : s.getLast? = pyMax l := by
  have hsne : s ≠ [] := by
    intro h
    subst h
    exact hne hp.symm.eq_nil
  rw [List.getLast?_eq_getLast s hsne,
    pyMax_eq_of (hp.mem_iff.mp (List.getLast_mem hsne))]
  intro x hx
  exact mem_le_getLast hs (hp.mem_iff.mpr hx)

/-! ### Fencepost computations, explicit forms -/

/-- Closed form of the proportional fenceposts produced at construction time
    (where `bin_mid` is exactly `(bin_min+bin_max)/2`). -/
def uniformPosts (bmin bmax : ℚ) (P : ℕ) : List ℚ :=
  (List.range (P + 1)).map fun i : ℕ => bmin + (i : ℚ) * ((bmax - bmin) / P)

/-- Closed form of the non-proportional fenceposts over the sorted list `s`. -/
def npPosts (s : List ℚ) (P : ℕ) : List ℚ :=
  ((List.range P).map fun i => s.getD (i * s.length / P) 0) ++ [s.getLast?.getD 0]

theorem mapM_option_eq_map {α β : Type} {l : List α} {f : α → Option β} {g : α → β}
    (h : ∀ a ∈ l, f a = some (g a)) : l.mapM f = some (l.map g) := by
  induction l with
  | nil => rfl
  | cons x xs ih =>
    rw [List.mapM_cons, h x (List.mem_cons_self x xs),
      ih (fun a ha => h a (List.mem_cons_of_mem x ha))]
    rfl

/-- The index `int(i * (len/P))` stays in range: `i*n/P < n` for `i < P`. -/
theorem np_idx_lt {n P i : ℕ} (hn : 0 < n) (hP : 0 < P) (hi : i < P) :
    i * n / P < n := by
  rw [Nat.div_lt_iff_lt_mul hP]
  calc i * n < P * n := mul_lt_mul_of_pos_right hi hn
  _ = n * P := Nat.mul_comm P n

theorem fencepostsNP_eq {s : List ℚ} {P : ℕ} (hne : s ≠ []) (hP : 0 < P) :
    fencepostsNP s P = .ok (npPosts s P) := by
  have hn : 0 < s.length := List.length_pos.mpr hne
  unfold fencepostsNP
  rw [if_neg (Nat.pos_iff_ne_zero.mp hP)]
  have hmap : (List.range P).mapM (fun i => s.get? (i * s.length / P))
      = some ((List.range P).map fun i => s.getD (i * s.length / P) 0) := by
    apply mapM_option_eq_map
    intro i hi
    have hidx : i * s.length / P < s.length := np_idx_lt hn hP (List.mem_range.mp hi)
    simp [List.getElem?_eq_getElem hidx]
  rw [hmap]
  have hlast : s.getLast? = some (s.getLast?.getD 0) := by
    cases hl : s.getLast? with
    | none => exact absurd (List.getLast?_eq_none_iff.mp hl) hne
    | some v => rfl
  rw [hlast]
  rfl

theorem fencepostsProp_eq {bmin bmax : ℚ} {P : ℕ} (hP : 0 < P) :
    fencepostsProp bmin ((bmin + bmax) / 2) bmax P = .ok (uniformPosts bmin bmax P) := by
  have hP' : ¬P = 0 := Nat.pos_iff_ne_zero.mp hP
  have hPQ : (P : ℚ) ≠ 0 := Nat.cast_ne_zero.mpr hP'
  simp only [fencepostsProp, uniformPosts, if_neg hP']
  congr 1
  apply List.map_congr_left
  intro i hi
  have hiP : i ≤ P := Nat.lt_succ_iff.mp (List.mem_range.mp hi)
  by_cases h1 : 2 * i < P
  · rw [if_pos h1]
    field_simp
    ring
  · rw [if_neg h1]
    by_cases h2 : 2 * i = P
    · rw [if_pos h2]
      have hiz : i ≠ 0 := by omega
      have hiQ : (i : ℚ) ≠ 0 := Nat.cast_ne_zero.mpr hiz
      have hPi : (P : ℚ) = 2 * (i : ℚ) := by exact_mod_cast h2.symm
      rw [hPi]
      field_simp
      ring
    · rw [if_neg h2]
      have hcast : ((P - i : ℕ) : ℚ) = (P : ℚ) - (i : ℚ) := Nat.cast_sub hiP
      rw [hcast]
      field_simp
      ring

theorem uniformPosts_length (bmin bmax : ℚ) (P : ℕ) :
    (uniformPosts bmin bmax P).length = P + 1 := by
  simp [uniformPosts]

theorem npPosts_length (s : List ℚ) (P : ℕ) : (npPosts s P).length = P + 1 := by
  simp [npPosts]

theorem uniformPosts_chain' {bmin bmax : ℚ} {P : ℕ} (hle : bmin ≤ bmax) :
    (uniformPosts bmin bmax P).Chain' (· ≤ ·) := by
  unfold uniformPosts
  rw [List.chain'_map, show P + 1 = Nat.succ P from rfl, List.chain'_range_succ]
  intro m hm
  have hstep : (0:ℚ) ≤ (bmax - bmin) / P :=
    div_nonneg (by linarith) (Nat.cast_nonneg P)
  exact add_le_add_left
    (mul_le_mul_of_nonneg_right (by exact_mod_cast Nat.le_succ m) hstep) bmin

theorem uniformPosts_head? (bmin bmax : ℚ) (P : ℕ) :
    (uniformPosts bmin bmax P).head? = some bmin := by
  simp [uniformPosts, List.range_succ_eq_map]

theorem uniformPosts_getLast? {bmin bmax : ℚ} {P : ℕ} (hP : 0 < P) :
    (uniformPosts bmin bmax P).getLast? = some bmax := by
  have hPQ : (P : ℚ) ≠ 0 := Nat.cast_ne_zero.mpr (Nat.pos_iff_ne_zero.mp hP)
  rw [List.getLast?_eq_getElem?]
  have hlen : (uniformPosts bmin bmax P).length = P + 1 := uniformPosts_length bmin bmax P
  rw [hlen]
  unfold uniformPosts
  rw [List.getElem?_map]
  simp only [Nat.add_sub_cancel, List.getElem?_range (Nat.lt_succ_self P), Option.map_some']
  congr 1
  field_simp

theorem npPosts_head? {s : List ℚ} {P : ℕ} (hP : 0 < P) :
    (npPosts s P).head? = some (s.getD 0 0) := by
  cases P with
  | zero => omega
  | succ P' =>
    unfold npPosts
    rw [List.range_succ_eq_map]
    simp

theorem npPosts_getLast? (s : List ℚ) (P : ℕ) :
    (npPosts s P).getLast? = some (s.getLast?.getD 0) :=
  List.getLast?_concat _

theorem npPosts_getD {s : List ℚ} {P i : ℕ} (hi : i < P) :
    (npPosts s P).getD i 0 = s.getD (i * s.length / P) 0 := by
  unfold npPosts
  rw [List.getD_eq_getElem?_getD,
    List.getElem?_append_left (by simpa using hi), List.getElem?_map,
    List.getElem?_range hi]
  rfl

theorem npPosts_chain' {s : List ℚ} {P : ℕ} (hs : s.Sorted (· ≤ ·)) (hne : s ≠ [])
    (hP : 0 < P) : (npPosts s P).Chain' (· ≤ ·) := by
  have hn : 0 < s.length := List.length_pos.mpr hne
  unfold npPosts
  rw [List.chain'_append]
  refine ⟨?_, List.chain'_singleton _, ?_⟩
  · rw [List.chain'_map]
    cases P with
    | zero => omega
    | succ P' =>
      rw [show P' + 1 = Nat.succ P' from rfl, List.chain'_range_succ]
      intro m hm
      exact sorted_getD_mono hs
        (Nat.div_le_div_right (Nat.mul_le_mul_right s.length (Nat.le_succ m)))
        (np_idx_lt hn hP (by omega))
  · intro x hx y hy
    simp only [List.head?_cons, Option.mem_def, Option.some.injEq] at hy
    subst hy
    -- x is the last of the mapped prefix, i.e. the post for bin P-1
    rw [List.getLast?_eq_getElem?, List.length_map, List.length_range] at hx
    rw [List.getElem?_map, List.getElem?_range (Nat.sub_lt hP Nat.one_pos)] at hx
    simp only [Option.map_some', Option.mem_def, Option.some.injEq] at hx
    subst hx
    have hlast : s.getLast?.getD 0 = s.getD (s.length - 1) 0 := by
      rw [List.getLast?_eq_getElem?, List.getD_eq_getElem?_getD]
    rw [hlast]
    exact sorted_getD_mono hs
      (by
        have := np_idx_lt hn hP (Nat.sub_lt hP Nat.one_pos)
        omega)
      (by omega)

/-! ### The bin-assignment loop -/

theorem binStep_eq_foldl {fp : List ℚ} {qty : ℚ} {l : List ℕ} {b : ℕ}
    (h : ∀ i ∈ l, i < fp.length) :
    binStep fp qty l b
      = .ok (l.foldl (fun bin i => if fp.getD i 0 ≤ qty then i else bin) b) := by
  induction l generalizing b with
  | nil => rfl
  | cons i is ih =>
    have hi : i < fp.length := h i (List.mem_cons_self i is)
    have hD : fp.getD i 0 = fp[i] := by
      simp [List.getD_eq_getElem?_getD, List.getElem?_eq_getElem hi]
    simp only [binStep, List.get?_eq_getElem?, List.getElem?_eq_getElem hi,
      List.foldl_cons, hD]
    exact ih (fun j hj => h j (List.mem_cons_of_mem i hj))

theorem foldl_eq_findGreatest (fp : List ℚ) (qty : ℚ) (m : ℕ) :
    (List.range' 1 m).foldl (fun bin i => if fp.getD i 0 ≤ qty then i else bin) 0
      = Nat.findGreatest (fun i => fp.getD i 0 ≤ qty) m := by
  induction m with
  | zero => rfl
  | succ m ih =>
    rw [List.range'_1_concat, List.foldl_append, ih, List.foldl_cons, List.foldl_nil,
      Nat.add_comm 1 m, Nat.findGreatest_succ]

theorem binIndex_eq {P : ℕ} {fp : List ℚ} (hfp : fp.length = P + 1) (qty : ℚ) :
    binIndex P fp qty = .ok (binIndexSpec P fp qty) := by
  unfold binIndex binIndexSpec
  rw [binStep_eq_foldl, foldl_eq_findGreatest]
  intro i hi
  rw [List.mem_range'] at hi
  obtain ⟨k, hk, rfl⟩ := hi
  omega

theorem binIndexSpec_lt {P : ℕ} (hP : 0 < P) (fp : List ℚ) (q : ℚ) :
    binIndexSpec P fp q < P :=
  Nat.lt_of_le_of_lt (Nat.findGreatest_le (P-1)) (by omega)

theorem incrAt_ok {counts : List ℕ} {b : ℕ} (hb : b < counts.length) :
    ∃ counts', incrAt counts b = .ok counts' ∧ counts'.length = counts.length ∧
      counts'.sum = counts.sum + 1 ∧
      ∀ j, counts'.getD j 0 = counts.getD j 0 + (if j = b then 1 else 0) := by
  induction counts generalizing b with
  | nil => simp at hb
  | cons c cs ih =>
    cases b with
    | zero =>
      refine ⟨(c+1) :: cs, rfl, by simp, by simp [Nat.add_right_comm], ?_⟩
      intro j
      cases j with
      | zero => simp
      | succ j => simp
    | succ b =>
      obtain ⟨cs', h1, h2, h3, h4⟩ := ih (Nat.lt_of_succ_lt_succ hb)
      refine ⟨c :: cs', ?_, by simp [h2], ?_, ?_⟩
      · simp [incrAt, h1]
      · simp only [List.sum_cons, h3]
        omega
      · intro j
        cases j with
        | zero => simp
        | succ j => simpa using h4 j

theorem get?_eq_some_getD {l : List String} {b : ℕ} (hb : b < l.length) :
    l.get? b = some (l.getD b "") := by
  simp [List.getElem?_eq_getElem hb]

theorem calcColorsGo_cons {colors_in : List String} {fp : List ℚ} {q : ℚ}
    {qs : List ℚ} {counts : List ℕ} {bin : ℕ} {c : String} {counts' : List ℕ}
    (h1 : binIndex colors_in.length fp q = .ok bin)
    (h2 : colors_in.get? bin = some c)
    (h3 : incrAt counts bin = .ok counts') :
    calcColorsGo colors_in fp (q :: qs) counts
      = (calcColorsGo colors_in fp qs counts').map (fun r => (c :: r.1, r.2)) := by
  simp only [calcColorsGo, h1, h2, h3]
  cases calcColorsGo colors_in fp qs counts' with
  | error e => rfl
  | ok r => cases r; rfl

theorem calcColorsGo_ok {colors_in : List String} {fp : List ℚ}
    (hP : 0 < colors_in.length) (hfp : fp.length = colors_in.length + 1) :
    ∀ (qs : List ℚ) (counts : List ℕ), counts.length = colors_in.length →
    ∃ outs final, calcColorsGo colors_in fp qs counts = .ok (outs, final) ∧
      outs = qs.map (fun q => colors_in.getD (binIndexSpec colors_in.length fp q) "") ∧
      final.length = colors_in.length ∧
      final.sum = counts.sum + qs.length ∧
      ∀ b, final.getD b 0 = counts.getD b 0
        + qs.countP (fun q => binIndexSpec colors_in.length fp q == b) := by
  intro qs
  induction qs with
  | nil =>
    intro counts hc
    exact ⟨[], counts, rfl, rfl, hc, by simp, by simp⟩
  | cons q qs ih =>
    intro counts hc
    have hbin : binIndexSpec colors_in.length fp q < colors_in.length :=
      binIndexSpec_lt hP fp q
    have hbc : binIndexSpec colors_in.length fp q < counts.length := by
      rw [hc]; exact hbin
    obtain ⟨counts', h1, h2, h3, h4⟩ := incrAt_ok hbc
    obtain ⟨outs, final, g1, g2, g3, g4, g5⟩ := ih counts' (h2.trans hc)
    refine ⟨colors_in.getD (binIndexSpec colors_in.length fp q) "" :: outs, final,
      ?_, ?_, g3, ?_, ?_⟩
    · rw [calcColorsGo_cons (binIndex_eq hfp q) (get?_eq_some_getD hbin) h1, g1]
      rfl
    · rw [List.map_cons, g2]
    · rw [g4, h3, List.length_cons]
      omega
    · intro b
      rw [g5 b, h4 b, List.countP_cons]
      by_cases hqb : binIndexSpec colors_in.length fp q = b
      · subst hqb
        simp only [beq_self_eq_true, if_true, if_pos rfl]
        omega
      · have hb1 : (binIndexSpec colors_in.length fp q == b) = false := by
          simp [hqb]
        have hb2 : ¬(b = binIndexSpec colors_in.length fp q) := fun h => hqb h.symm
        simp only [hb1, Bool.false_eq_true, if_neg hb2, if_false]
        omega

theorem calc_colors_ok {qs : List ℚ} {colors_in : List String} {fp : List ℚ}
    (hP : 0 < colors_in.length) (hfp : fp.length = colors_in.length + 1) :
    ∃ outs final, calc_colors qs colors_in fp = .ok (outs, final) ∧
      outs = qs.map (fun q => colors_in.getD (binIndexSpec colors_in.length fp q) "") ∧
      final.length = colors_in.length ∧
      final.sum = qs.length ∧
      ∀ b, final.getD b 0
        = qs.countP (fun q => binIndexSpec colors_in.length fp q == b) := by
  obtain ⟨outs, final, h1, h2, h3, h4, h5⟩ :=
    calcColorsGo_ok hP hfp qs (List.replicate colors_in.length 0) (by simp)
  refine ⟨outs, final, h1, h2, h3, ?_, ?_⟩
  · rw [h4, List.sum_replicate]
    simp
  · intro b
    rw [h5 b, List.getD_eq_getElem?_getD, List.getElem?_replicate]
    split <;> simp

/-! ### Characterization of a successfully constructed `Colorbin` -/

theorem insertionSort_perm (qs : List ℚ) :
    (qs.insertionSort (· ≤ ·)).Perm qs :=
  List.perm_insertionSort _ qs

theorem insertionSort_sorted (qs : List ℚ) :
    (qs.insertionSort (· ≤ ·)).Sorted (· ≤ ·) :=
  List.sorted_insertionSort _ qs

theorem insertionSort_ne_nil {qs : List ℚ} (h : qs ≠ []) :
    qs.insertionSort (· ≤ ·) ≠ [] := by
  intro hc
  apply h
  have hlen : qs.length = 0 := by
    rw [← (insertionSort_perm qs).length_eq, hc]
    rfl
  exact List.length_eq_zero.mp hlen

theorem calc_fenceposts_eq {qs : List ℚ} {colors_len : ℕ} {p : Bool}
    {bmin bmax : ℚ} (hqs : qs ≠ []) (hP : 0 < colors_len) :
    calc_fenceposts qs colors_len p bmin ((bmin + bmax) / 2) bmax none
      = .ok (if p then uniformPosts bmin bmax colors_len
             else npPosts (qs.insertionSort (· ≤ ·)) colors_len) := by
  cases p with
  | true =>
    simp only [calc_fenceposts, if_true]
    rw [fencepostsProp_eq hP]
  | false =>
    simp only [calc_fenceposts, Bool.false_eq_true, if_false]
    rw [fencepostsNP_eq (insertionSort_ne_nil hqs) hP]

theorem init_ok_spec (quantities : List (Option ℚ)) (colors_in : List String)
    (p : Bool) (d : Option ℤ)
    (h1 : quantities.filterMap id ≠ []) (h2 : colors_in ≠ []) :
    ∃ cb bmin bmax,
      Colorbin.init quantities colors_in p d = .ok cb ∧
      pyMin (quantities.filterMap id) = some bmin ∧
      pyMax (quantities.filterMap id) = some bmax ∧
      cb.quantities = quantities.filterMap id ∧
      cb.colors_in = colors_in ∧
      cb.bin_min = bmin ∧ cb.bin_max = bmax ∧ cb.bin_mid = (bmin + bmax) / 2 ∧
      cb.fenceposts = (if p then uniformPosts bmin bmax colors_in.length
        else npPosts ((quantities.filterMap id).insertionSort (· ≤ ·))
          colors_in.length) ∧
      cb.colors_out = (quantities.filterMap id).map
        (fun q => colors_in.getD (binIndexSpec colors_in.length cb.fenceposts q) "") ∧
      cb.bin_counts.length = colors_in.length ∧
      cb.bin_counts.sum = (quantities.filterMap id).length ∧
      ∀ b, cb.bin_counts.getD b 0 = (quantities.filterMap id).countP
        (fun q => binIndexSpec colors_in.length cb.fenceposts q == b) := by
  have hP : 0 < colors_in.length := List.length_pos.mpr h2
  obtain ⟨bmin, hbmin⟩ := pyMin_isSome h1
  obtain ⟨bmax, hbmax⟩ := pyMax_isSome h1
  have hfp := @calc_fenceposts_eq (quantities.filterMap id) colors_in.length p
    bmin bmax h1 hP
  have hfpl : (if p then uniformPosts bmin bmax colors_in.length
      else npPosts ((quantities.filterMap id).insertionSort (· ≤ ·))
        colors_in.length).length = colors_in.length + 1 := by
    cases p <;> simp [uniformPosts_length, npPosts_length]
  obtain ⟨outs, final, hcc, houts, hflen, hfsum, hfgetD⟩ :=
    @calc_colors_ok (quantities.filterMap id) colors_in _ hP hfpl
  refine ⟨⟨quantities.filterMap id, colors_in, p, bmin, (bmin + bmax) / 2, bmax,
    none,
    (if p then uniformPosts bmin bmax colors_in.length
     else npPosts ((quantities.filterMap id).insertionSort (· ≤ ·))
       colors_in.length),
    outs, final, none⟩, bmin, bmax,
    ?_, hbmin, hbmax, rfl, rfl, rfl, rfl, rfl, rfl, houts, hflen, hfsum, hfgetD⟩
  simp only [Colorbin.init, hbmin, hbmax, hfp, hcc]

/-! ### Hex parsing of well-formed colors -/

theorem hex_toNat_range {c : Char} {v : ℕ} (h : hexDigitVal? c = some v) :
    (48 ≤ c.toNat ∧ c.toNat ≤ 57) ∨ (97 ≤ c.toNat ∧ c.toNat ≤ 102) ∨
      (65 ≤ c.toNat ∧ c.toNat ≤ 70) := by
  have conv : ∀ a b : Char, a ≤ b → a.toNat ≤ b.toNat := by
    intro a b hab
    simpa [Char.le_def, UInt32.le_def, BitVec.le_def, Char.toNat, UInt32.toNat]
      using hab
  unfold hexDigitVal? at h
  split_ifs at h with h1 h2 h3
  · exact Or.inl ⟨conv _ _ h1.1, conv _ _ h1.2⟩
  · exact Or.inr (Or.inl ⟨conv _ _ h2.1, conv _ _ h2.2⟩)
  · exact Or.inr (Or.inr ⟨conv _ _ h3.1, conv _ _ h3.2⟩)

theorem hex_char_ne {c : Char} {v : ℕ} (h : hexDigitVal? c = some v) (L : Char)
    (hL : L.toNat < 48 ∨ (57 < L.toNat ∧ L.toNat < 65) ∨
      (70 < L.toNat ∧ L.toNat < 97) ∨ 102 < L.toNat) : c ≠ L := by
  intro hc
  subst hc
  rcases hex_toNat_range h with ⟨a, b⟩ | ⟨a, b⟩ | ⟨a, b⟩ <;> omega

theorem hex_char_not_ws {c : Char} {v : ℕ} (h : hexDigitVal? c = some v) :
    c.isWhitespace = false := by
  have h1 := hex_char_ne h ' ' (by decide)
  have h2 := hex_char_ne h '\t' (by decide)
  have h3 := hex_char_ne h '\r' (by decide)
  have h4 := hex_char_ne h '\n' (by decide)
  simp [Char.isWhitespace, h1, h2, h3, h4]

/-- `int(s, 16)` on exactly two hex digits. -/
theorem pyIntHex16_pair {a b : Char} {va vb : ℕ}
    (ha : hexDigitVal? a = some va) (hb : hexDigitVal? b = some vb) :
    pyIntHex16 [a, b] = some ((16 * va + vb : ℕ) : ℤ) := by
  have hwa := hex_char_not_ws ha
  have hwb := hex_char_not_ws hb
  have hstrip : ([a, b].dropWhile Char.isWhitespace) = [a, b] := by
    rw [List.dropWhile_cons_of_neg (by simp [hwa])]
  have hstrip2 : ([b, a].dropWhile Char.isWhitespace) = [b, a] := by
    rw [List.dropWhile_cons_of_neg (by simp [hwb])]
  unfold pyIntHex16
  simp only [hstrip, List.reverse_cons, List.reverse_nil, List.nil_append,
    List.cons_append]
  simp only [show ([] : List Char) ++ [b] ++ [a] = [b, a] from rfl, hstrip2]
  simp only [List.reverse_cons, List.reverse_nil, List.nil_append,
    List.cons_append, show ([] : List Char) ++ [a] ++ [b] = [a, b] from rfl]
  rw [if_neg (hex_char_ne ha '+' (by decide)),
    if_neg (hex_char_ne ha '-' (by decide))]
  have hpre : stripHexHead [a, b] = [a, b] := by
    simp only [stripHexHead]
    rw [if_neg (fun hc => hc.2.elim (hex_char_ne hb 'x' (by decide))
      (hex_char_ne hb 'X' (by decide)))]
  simp only [parseHexMag, hpre, ha]
  simp only [hexDigitsVal]
  rw [if_neg (hex_char_ne hb '_' (by decide)), hb]
  rfl

theorem length_seven_destruct {α : Type} {l : List α} (h : l.length = 7) :
    ∃ a0 a1 a2 a3 a4 a5 a6, l = [a0, a1, a2, a3, a4, a5, a6] := by
  rcases l with _ | ⟨a0, l⟩
  · simp only [List.length_nil] at h
    omega
  rcases l with _ | ⟨a1, l⟩
  · simp only [List.length_cons, List.length_nil] at h
    omega
  rcases l with _ | ⟨a2, l⟩
  · simp only [List.length_cons, List.length_nil] at h
    omega
  rcases l with _ | ⟨a3, l⟩
  · simp only [List.length_cons, List.length_nil] at h
    omega
  rcases l with _ | ⟨a4, l⟩
  · simp only [List.length_cons, List.length_nil] at h
    omega
  rcases l with _ | ⟨a5, l⟩
  · simp only [List.length_cons, List.length_nil] at h
    omega
  rcases l with _ | ⟨a6, l⟩
  · simp only [List.length_cons, List.length_nil] at h
    omega
  rcases l with _ | ⟨a7, l⟩
  · exact ⟨a0, a1, a2, a3, a4, a5, a6, rfl⟩
  · simp only [List.length_cons] at h
    omega

theorem wellFormedColor_destruct {color : String} (h : wellFormedColor color = true) :
    ∃ c1 c2 c3 c4 c5 c6 v1 v2 v3 v4 v5 v6,
      color.data = ['#', c1, c2, c3, c4, c5, c6] ∧
      hexDigitVal? c1 = some v1 ∧ hexDigitVal? c2 = some v2 ∧
      hexDigitVal? c3 = some v3 ∧ hexDigitVal? c4 = some v4 ∧
      hexDigitVal? c5 = some v5 ∧ hexDigitVal? c6 = some v6 := by
  unfold wellFormedColor at h
  simp only [Bool.and_eq_true, beq_iff_eq, List.all_eq_true,
    Option.isSome_iff_exists] at h
  obtain ⟨⟨hlen, hhead⟩, hall⟩ := h
  obtain ⟨a0, a1, a2, a3, a4, a5, a6, hdata⟩ := length_seven_destruct hlen
  have ha0 : a0 = '#' := by
    rw [hdata] at hhead
    simpa using hhead
  subst ha0
  rw [hdata] at hall
  simp only [List.drop_succ_cons, List.drop_zero] at hall
  obtain ⟨v1, hv1⟩ := hall a1 (by simp)
  obtain ⟨v2, hv2⟩ := hall a2 (by simp)
  obtain ⟨v3, hv3⟩ := hall a3 (by simp)
  obtain ⟨v4, hv4⟩ := hall a4 (by simp)
  obtain ⟨v5, hv5⟩ := hall a5 (by simp)
  obtain ⟨v6, hv6⟩ := hall a6 (by simp)
  exact ⟨a1, a2, a3, a4, a5, a6, v1, v2, v3, v4, v5, v6, hdata,
    hv1, hv2, hv3, hv4, hv5, hv6⟩

theorem complementOf_wellFormed {cutoff : ℚ} {below above color : String}
    (h : wellFormedColor color = true) :
    complementOf cutoff below above color
      = .ok (if specLum color < cutoff then below else above) := by
  obtain ⟨c1, c2, c3, c4, c5, c6, v1, v2, v3, v4, v5, v6, hdata,
    h1, h2, h3, h4, h5, h6⟩ := wellFormedColor_destruct h
  have hch0 : (specChannel color 0 : ℚ) = (((16 * v1 + v2 : ℕ) : ℤ) : ℚ) := by
    unfold specChannel
    rw [hdata]
    simp [h1, h2]
  have hch1 : (specChannel color 1 : ℚ) = (((16 * v3 + v4 : ℕ) : ℤ) : ℚ) := by
    unfold specChannel
    rw [hdata]
    simp [h3, h4]
  have hch2 : (specChannel color 2 : ℚ) = (((16 * v5 + v6 : ℕ) : ℤ) : ℚ) := by
    unfold specChannel
    rw [hdata]
    simp [h5, h6]
  have hgrey : specLum color
      = ((299 : ℚ)/1000 * (((16 * v1 + v2 : ℕ) : ℤ) : ℚ)
        + (587 : ℚ)/1000 * (((16 * v3 + v4 : ℕ) : ℤ) : ℚ)
        + (114 : ℚ)/1000 * (((16 * v5 + v6 : ℕ) : ℤ) : ℚ)) / 256 := by
    unfold specLum
    rw [hch0, hch1, hch2]
  unfold complementOf
  rw [hdata]
  simp only [List.drop_succ_cons, List.drop_zero, List.take_succ_cons,
    List.take_zero]
  rw [pyIntHex16_pair h1 h2, pyIntHex16_pair h3 h4, pyIntHex16_pair h5 h6, hgrey]

/-- The slice-level failure condition of `calc_complements` for one color. -/
def colorMalformed (s : String) : Bool :=
  ((pyIntHex16 ((s.data.drop 1).take 2)).isNone
    || (pyIntHex16 (((s.data.drop 1).drop 2).take 2)).isNone)
    || (pyIntHex16 (((s.data.drop 1).drop 4).take 2)).isNone

theorem complementOf_error_iff {cutoff : ℚ} {below above c : String} :
    (complementOf cutoff below above c = .error .malformedColor)
      ↔ colorMalformed c = true := by
  unfold complementOf colorMalformed
  cases h1 : pyIntHex16 ((c.data.drop 1).take 2) <;>
    cases h2 : pyIntHex16 (((c.data.drop 1).drop 2).take 2) <;>
      cases h3 : pyIntHex16 (((c.data.drop 1).drop 4).take 2) <;>
        simp

theorem complementOf_shape (cutoff : ℚ) (below above c : String) :
    complementOf cutoff below above c = .error .malformedColor ∨
      ∃ s, complementOf cutoff below above c = .ok s := by
  unfold complementOf
  cases h1 : pyIntHex16 ((c.data.drop 1).take 2) <;>
    cases h2 : pyIntHex16 (((c.data.drop 1).drop 2).take 2) <;>
      cases h3 : pyIntHex16 (((c.data.drop 1).drop 4).take 2) <;>
        simp

theorem calc_complements_wellFormed {colors : List String} {cutoff : ℚ}
    {below above : String} (h : ∀ c ∈ colors, wellFormedColor c = true) :
    calc_complements colors cutoff below above
      = .ok (colors.map fun c => if specLum c < cutoff then below else above) := by
  induction colors with
  | nil => rfl
  | cons c cs ih =>
    unfold calc_complements at ih ⊢
    rw [List.mapM_cons, complementOf_wellFormed (h c (List.mem_cons_self c cs)),
      ih (fun x hx => h x (List.mem_cons_of_mem c hx))]
    rfl

theorem except_bind_ok {ε α β : Type} (a : α) (f : α → Except ε β) :
    ((Except.ok a : Except ε α) >>= f) = f a := rfl

theorem except_bind_err {ε α β : Type} (e : ε) (f : α → Except ε β) :
    ((Except.error e : Except ε α) >>= f) = .error e := rfl

theorem except_pure {ε α : Type} (a : α) : (pure a : Except ε α) = .ok a := rfl

theorem mapM_complementOf_shape (cutoff : ℚ) (below above : String) :
    ∀ cs : List String,
      (∃ l, cs.mapM (complementOf cutoff below above) = .ok l) ∨
        cs.mapM (complementOf cutoff below above) = .error .malformedColor := by
  intro cs
  induction cs with
  | nil => exact Or.inl ⟨[], rfl⟩
  | cons c cs ih =>
    rw [List.mapM_cons]
    rcases complementOf_shape cutoff below above c with he | ⟨s, hs⟩
    · rw [he, except_bind_err]
      exact Or.inr rfl
    · rw [hs, except_bind_ok]
      rcases ih with ⟨l, hl⟩ | he2
      · exact Or.inl ⟨s :: l, by rw [hl, except_bind_ok, except_pure]⟩
      · exact Or.inr (by rw [he2, except_bind_err])

theorem mapM_complementOf_error_iff (cutoff : ℚ) (below above : String)
    (cs : List String) :
    (cs.mapM (complementOf cutoff below above) = .error .malformedColor)
      ↔ ∃ c ∈ cs, colorMalformed c = true := by
  induction cs with
  | nil =>
    rw [List.mapM_nil]
    simp [except_pure]
  | cons c cs ih =>
    rw [List.mapM_cons]
    rcases complementOf_shape cutoff below above c with he | ⟨s, hs⟩
    · rw [he, except_bind_err]
      constructor
      · intro _
        exact ⟨c, List.mem_cons_self c cs, complementOf_error_iff.mp he⟩
      · intro _
        rfl
    · rw [hs, except_bind_ok]
      have hcnot : ¬colorMalformed c = true := by
        intro hcm
        have h2 := (@complementOf_error_iff cutoff below above c).mpr hcm
        rw [hs] at h2
        exact absurd h2 (by simp)
      rcases mapM_complementOf_shape cutoff below above cs with ⟨l, hl⟩ | he2
      · rw [hl, except_bind_ok, except_pure]
        constructor
        · intro h
          exact absurd h (by simp)
        · rintro ⟨x, hx, hmal⟩
          rcases List.mem_cons.mp hx with rfl | hx2
          · exact absurd hmal hcnot
          · have h3 := ih.mpr ⟨x, hx2, hmal⟩
            rw [hl] at h3
            exact absurd h3 (by simp)
      · rw [he2, except_bind_err]
        constructor
        · intro _
          obtain ⟨x, hx, hm⟩ := ih.mp he2
          exact ⟨x, List.mem_cons_of_mem c hx, hm⟩
        · intro _
          rfl

theorem calc_complements_error_iff {colors : List String} {cutoff : ℚ}
    {below above : String} :
    (calc_complements colors cutoff below above = .error .malformedColor)
      ↔ ∃ c ∈ colors, colorMalformed c = true :=
  mapM_complementOf_error_iff cutoff below above colors

/-- A well-formed `#RRGGBB` color never triggers the parse failure. -/
theorem wellFormed_not_malformed {c : String} (h : wellFormedColor c = true) :
    colorMalformed c = false := by
  have h2 := @complementOf_wellFormed 0 "" "" c h
  by_contra hcm
  have h3 := (@complementOf_error_iff 0 "" "" c).mpr (by simpa using hcm)
  rw [h2] at h3
  exact absurd h3 (by simp)

/-! ### Bin counts in non-proportional (quantile) mode -/

theorem countP_eq_countP_range {α : Type} (l : List α) (p : α → Bool) (d : α) :
    l.countP p = (List.range l.length).countP (fun j => p (l.getD j d)) := by
  induction l with
  | nil => rfl
  | cons x xs ih =>
    rw [List.countP_cons, List.length_cons, List.range_succ_eq_map,
      List.countP_cons, List.countP_map]
    simp only [List.getD_cons_zero]
    have hc : (List.range xs.length).countP
          ((fun j => p ((x :: xs).getD j d)) ∘ Nat.succ)
        = (List.range xs.length).countP (fun j => p (xs.getD j d)) := by
      apply List.countP_congr
      intro a _
      simp [Function.comp]
    rw [hc, ih]

theorem countP_range_interval (n lo hi : ℕ) :
    (List.range n).countP (fun j => decide (lo ≤ j ∧ j < hi))
      = min hi n - min lo n := by
  induction n with
  | zero => simp
  | succ n ih =>
    rw [List.range_succ, List.countP_append, ih, List.countP_cons, List.countP_nil]
    by_cases h : lo ≤ n ∧ n < hi
    · rw [decide_eq_true h]
      simp only [if_true]
      omega
    · rw [decide_eq_false h]
      simp only [Bool.false_eq_true, if_false]
      omega

theorem np_idx_mono {n P i1 i2 : ℕ} (h : i1 ≤ i2) : i1 * n / P ≤ i2 * n / P :=
  Nat.div_le_div_right (Nat.mul_le_mul_right n h)

theorem np_idx_top {n P : ℕ} (hP : 0 < P) : P * n / P = n :=
  Nat.mul_div_cancel_left n hP

/-- On distinct sorted quantities, the bin of the `j`-th value is `b` exactly
    when `j` lies in the index window `[b*n/P, (b+1)*n/P)`. -/
theorem binIndexSpec_np {s : List ℚ} {P j : ℕ}
    (hs : s.Sorted (· ≤ ·)) (hd : s.Pairwise (· ≠ ·))
    (hP : 0 < P) (hPn : P ≤ s.length) (hj : j < s.length) {b : ℕ} (hb : b < P) :
    (binIndexSpec P (npPosts s P) (s.getD j 0) = b)
      ↔ (b * s.length / P ≤ j ∧ j < (b + 1) * s.length / P) := by
  have hn : 0 < s.length := lt_of_lt_of_le hP hPn
  have hpred : ∀ i, i < P →
      (((npPosts s P).getD i 0 ≤ s.getD j 0) ↔ (i * s.length / P ≤ j)) := by
    intro i hi
    rw [npPosts_getD hi]
    exact sorted_distinct_getD_le_iff hs hd (np_idx_lt hn hP hi) hj
  unfold binIndexSpec
  constructor
  · intro hFG
    constructor
    · rcases Nat.eq_zero_or_pos b with rfl | hbpos
      · have hz : 0 * s.length / P = 0 := by
          rw [Nat.zero_mul, Nat.zero_div]
        omega
      · have hPb := Nat.findGreatest_of_ne_zero hFG (Nat.pos_iff_ne_zero.mp hbpos)
        exact (hpred b hb).mp hPb
    · by_cases hbP : b + 1 ≤ P - 1
      · have hlt : Nat.findGreatest
            (fun i => (npPosts s P).getD i 0 ≤ s.getD j 0) (P - 1) < b + 1 := by
          omega
        have hnot := Nat.findGreatest_is_greatest hlt hbP
        have h2 : ¬((b + 1) * s.length / P ≤ j) :=
          fun hc => hnot ((hpred (b + 1) (by omega)).mpr hc)
        omega
      · have hbeq : b = P - 1 := by omega
        subst hbeq
        rw [show P - 1 + 1 = P from by omega, np_idx_top hP]
        exact hj
  · rintro ⟨hlo, hhi⟩
    rcases Nat.eq_zero_or_pos b with rfl | hbpos
    · rw [Nat.findGreatest_eq_zero_iff]
      intro k hk0 hkP hpk
      have hk : k < P := by omega
      have h1 := (hpred k hk).mp hpk
      have h2 : (0 + 1) * s.length / P ≤ k * s.length / P := np_idx_mono (by omega)
      omega
    · have hble : b ≤ P - 1 := by omega
      have hlow : b ≤ Nat.findGreatest
          (fun i => (npPosts s P).getD i 0 ≤ s.getD j 0) (P - 1) :=
        Nat.le_findGreatest hble ((hpred b hb).mpr hlo)
      have hhigh : Nat.findGreatest
          (fun i => (npPosts s P).getD i 0 ≤ s.getD j 0) (P - 1) ≤ b := by
        by_contra hgt
        push_neg at hgt
        have hFle := Nat.findGreatest_le
          (P := fun i => (npPosts s P).getD i 0 ≤ s.getD j 0) (P - 1)
        have hFpos : Nat.findGreatest
            (fun i => (npPosts s P).getD i 0 ≤ s.getD j 0) (P - 1) ≠ 0 := by
          omega
        have hpF := Nat.findGreatest_of_ne_zero rfl hFpos
        have h3 := (hpred _ (by omega : Nat.findGreatest
            (fun i => (npPosts s P).getD i 0 ≤ s.getD j 0) (P - 1) < P)).mp hpF
        have h4 : (b + 1) * s.length / P ≤ Nat.findGreatest
            (fun i => (npPosts s P).getD i 0 ≤ s.getD j 0) (P - 1)
              * s.length / P :=
          np_idx_mono (by omega)
        omega
      omega

theorem np_bin_countP {s : List ℚ} (hs : s.Sorted (· ≤ ·))
    (hd : s.Pairwise (· ≠ ·)) {P b : ℕ}
    (hP : 0 < P) (hPn : P ≤ s.length) (hb : b < P) :
    s.countP (fun q => binIndexSpec P (npPosts s P) q == b)
      = (b + 1) * s.length / P - b * s.length / P := by
  rw [countP_eq_countP_range s _ 0]
  have hcongr : ∀ j ∈ List.range s.length,
      ((binIndexSpec P (npPosts s P) (s.getD j 0) == b) = true
        ↔ decide (b * s.length / P ≤ j ∧ j < (b + 1) * s.length / P) = true) := by
    intro j hj
    have hj' : j < s.length := List.mem_range.mp hj
    rw [beq_iff_eq, decide_eq_true_eq]
    exact binIndexSpec_np hs hd hP hPn hj' hb
  rw [List.countP_congr hcongr, countP_range_interval]
  have h1 : (b + 1) * s.length / P ≤ s.length := by
    have := np_idx_mono (n := s.length) (P := P) (show b + 1 ≤ P by omega)
    rw [np_idx_top hP] at this
    exact this
  have h2 : b * s.length / P ≤ s.length :=
    le_trans (np_idx_mono (by omega : b ≤ b + 1)) h1
  rw [Nat.min_eq_left h1, Nat.min_eq_left h2]

theorem np_window_size {n P b : ℕ} (hP : 0 < P) :
    (b + 1) * n / P - b * n / P = n / P ∨
      (b + 1) * n / P - b * n / P = n / P + 1 := by
  have hbe : (b + 1) * n = b * n + n := by ring
  have h : (b * n + n) / P
      = b * n / P + n / P + if P ≤ b * n % P + n % P then 1 else 0 :=
    Nat.add_div hP
  rw [hbe, h]
  by_cases hc : P ≤ b * n % P + n % P
  · rw [if_pos hc]
    right
    clear h hc
    generalize b * n / P = A
    generalize n / P = B
    omega
  · rw [if_neg hc]
    left
    clear h hc
    generalize b * n / P = A
    generalize n / P = B
    omega

/-! ### Claim theorems -/

theorem head?_eq_some_getD {s : List ℚ} (h : s ≠ []) :
    s.head? = some (s.getD 0 0) := by
  cases s with
  | nil => exact absurd rfl h
  | cons a t => rfl

theorem getLast?_eq_some_getD' {s : List ℚ} (h : s ≠ []) :
    s.getLast? = some (s.getLast?.getD 0) := by
  cases hl : s.getLast? with
  | none => exact absurd (List.getLast?_eq_none_iff.mp hl) h
  | some v => rfl

/-- Claim C2: for every Binner constructed from a non-empty NaN-filtered
    quantity list and a non-empty palette, in both proportional and
    non-proportional mode the fencepost list has exactly `P+1` entries, is
    monotonically non-decreasing, its first entry is the minimum quantity
    and its last entry is the maximum quantity. -/
theorem claim_C2 (quantities : List (Option ℚ)) (colors_in : List String)
    (p : Bool) (d : Option ℤ) (cb : Colorbin)
    (h1 : quantities.filterMap id ≠ []) (h2 : colors_in ≠ [])
    (hcb : Colorbin.init quantities colors_in p d = .ok cb) :
    cb.fenceposts.length = colors_in.length + 1 ∧
    cb.fenceposts.Chain' (· ≤ ·) ∧
    cb.fenceposts.head? = pyMin (quantities.filterMap id) ∧
    cb.fenceposts.getLast? = pyMax (quantities.filterMap id) := by
  obtain ⟨cb', bmin, bmax, hinit, hbmin, hbmax, _, _, _, _, _, hfp, _⟩ :=
    init_ok_spec quantities colors_in p d h1 h2
  rw [hcb] at hinit
  injection hinit with hinit
  subst hinit
  have hP : 0 < colors_in.length := List.length_pos.mpr h2
  have hsorted := insertionSort_sorted (quantities.filterMap id)
  have hperm := insertionSort_perm (quantities.filterMap id)
  have hsne := insertionSort_ne_nil h1
  have hminmax : bmin ≤ bmax := by
    obtain ⟨_, hlb⟩ := pyMin_spec hbmin
    obtain ⟨hmem, _⟩ := pyMax_spec hbmax
    exact hlb bmax hmem
  rw [hfp]
  cases p with
  | true =>
    simp only [if_true]
    refine ⟨uniformPosts_length _ _ _, uniformPosts_chain' hminmax, ?_, ?_⟩
    · rw [uniformPosts_head?, hbmin]
    · rw [uniformPosts_getLast? hP, hbmax]
  | false =>
    simp only [Bool.false_eq_true, if_false]
    refine ⟨npPosts_length _ _, npPosts_chain' hsorted hsne hP, ?_, ?_⟩
    · rw [npPosts_head? hP, ← sorted_head_eq_pyMin hsorted hperm h1]
      exact (head?_eq_some_getD hsne).symm
    · rw [npPosts_getLast?, ← sorted_getLast_eq_pyMax hsorted hperm h1]
      exact (getLast?_eq_some_getD' hsne).symm

unseal Rat.mul Rat.add Rat.sub Rat.inv in
theorem claim_C2_witness :
    ([1, 3/2, 2] : List ℚ).length = 2 + 1 ∧
    ([1, 3/2, 2] : List ℚ).Chain' (· ≤ ·) ∧
    ([1, 3/2, 2] : List ℚ).head? = pyMin [2, 1] ∧
    ([1, 3/2, 2] : List ℚ).getLast? = pyMax [2, 1] :=
  claim_C2 [some 2, some 1] ["a", "b"] true none
    ⟨[2, 1], ["a", "b"], true, 1, 3/2, 2, none, [1, 3/2, 2], ["b", "a"], [1, 1],
      none⟩
    (by decide) (by decide) (by decide)

unseal Rat.mul Rat.add Rat.sub Rat.inv in
/-- Claim C1: each (non-NaN) quantity is assigned the bin index that is the
    largest `i` in `[1, P-1]` with `quantity ≥ fenceposts[i]` (`0` when none
    qualifies, encoded by `binIndexSpec` via `Nat.findGreatest`), and its
    output color is `palette[bin]`; in particular with fenceposts `[0, 5, 10]`
    the quantity `5` lands in bin 1 (upper bin), not bin 0. -/
theorem claim_C1 (quantities : List (Option ℚ)) (colors_in : List String)
    (p : Bool) (d : Option ℤ) (cb : Colorbin)
    (h1 : quantities.filterMap id ≠ []) (h2 : colors_in ≠ [])
    (hcb : Colorbin.init quantities colors_in p d = .ok cb) :
    (∀ j q, (quantities.filterMap id).get? j = some q →
      cb.colors_out.get? j
        = colors_in.get? (binIndexSpec colors_in.length cb.fenceposts q)) ∧
    (Colorbin.init [some 0, some 5, some 10] ["#c0c0c0", "#404040"] true
        none).map (fun b => (b.fenceposts, b.colors_out))
      = .ok ([0, 5, 10], ["#c0c0c0", "#404040", "#404040"]) := by
  constructor
  · intro j q hq
    obtain ⟨cb', bmin, bmax, hinit, _, _, _, _, _, _, _, _, houts, _⟩ :=
      init_ok_spec quantities colors_in p d h1 h2
    rw [hcb] at hinit
    injection hinit with hinit
    subst hinit
    have hP : 0 < colors_in.length := List.length_pos.mpr h2
    rw [List.get?_eq_getElem?] at hq
    rw [houts, List.get?_eq_getElem?, List.getElem?_map, hq]
    simp only [Option.map_some']
    rw [get?_eq_some_getD (binIndexSpec_lt hP cb.fenceposts q)]
  · have : Colorbin.init [some 0, some 5, some 10] ["#c0c0c0", "#404040"]
        true none
        = .ok ⟨[0, 5, 10], ["#c0c0c0", "#404040"], true, 0, 5, 10, none,
          [0, 5, 10], ["#c0c0c0", "#404040", "#404040"], [1, 2], none⟩ := by
      decide
    rw [this]
    rfl

unseal Rat.mul Rat.add Rat.sub Rat.inv in
theorem claim_C1_witness :
    (["#c0c0c0", "#404040", "#404040"] : List String).get? 1
      = ["#c0c0c0", "#404040"].get?
          (binIndexSpec 2 ([0, 5, 10] : List ℚ) 5) :=
  (claim_C1 [some 0, some 5, some 10] ["#c0c0c0", "#404040"] true none
    ⟨[0, 5, 10], ["#c0c0c0", "#404040"], true, 0, 5, 10, none, [0, 5, 10],
      ["#c0c0c0", "#404040", "#404040"], [1, 2], none⟩
    (by decide) (by decide) (by decide)).1 1 5 (by decide)

/-- Claim C3: `colors_out` has exactly one entry per non-NaN input quantity,
    positionally aligned with the input order (entry `j` is the color assigned
    to the `j`-th filtered quantity), every entry is a member of the palette,
    and the bin counts sum to the number of non-NaN quantities. -/
theorem claim_C3 (quantities : List (Option ℚ)) (colors_in : List String)
    (p : Bool) (d : Option ℤ) (cb : Colorbin)
    (h1 : quantities.filterMap id ≠ []) (h2 : colors_in ≠ [])
    (hcb : Colorbin.init quantities colors_in p d = .ok cb) :
    cb.colors_out.length = (quantities.filterMap id).length ∧
    (∀ j q, (quantities.filterMap id).get? j = some q →
      cb.colors_out.get? j
        = some (colors_in.getD
            (binIndexSpec colors_in.length cb.fenceposts q) "")) ∧
    (∀ c ∈ cb.colors_out, c ∈ colors_in) ∧
    cb.bin_counts.sum = (quantities.filterMap id).length := by
  obtain ⟨cb', bmin, bmax, hinit, _, _, _, _, _, _, _, _, houts, _, hsum, _⟩ :=
    init_ok_spec quantities colors_in p d h1 h2
  rw [hcb] at hinit
  injection hinit with hinit
  subst hinit
  have hP : 0 < colors_in.length := List.length_pos.mpr h2
  refine ⟨by rw [houts, List.length_map], ?_, ?_, hsum⟩
  · intro j q hq
    rw [List.get?_eq_getElem?] at hq
    rw [houts, List.get?_eq_getElem?, List.getElem?_map, hq]
    rfl
  · intro c hc
    rw [houts] at hc
    obtain ⟨q, _, rfl⟩ := List.mem_map.mp hc
    have hb := binIndexSpec_lt hP cb.fenceposts q
    rw [List.getD_eq_getElem?_getD, List.getElem?_eq_getElem hb]
    simpa using List.getElem_mem hb

unseal Rat.mul Rat.add Rat.sub Rat.inv in
theorem claim_C3_witness :
    (["x", "y"] : List String).length
        = (([some 1, none, some 3] : List (Option ℚ)).filterMap id).length ∧
    (["x", "y"] : List String).get? 1
        = some ((["x", "y"] : List String).getD
            (binIndexSpec 2 ([1, 2, 3] : List ℚ) 3) "") ∧
    "y" ∈ (["x", "y"] : List String) ∧
    ([1, 1] : List ℕ).sum
        = (([some 1, none, some 3] : List (Option ℚ)).filterMap id).length := by
  have h := claim_C3 [some 1, none, some 3] ["x", "y"] true none
    ⟨[1, 3], ["x", "y"], true, 1, 2, 3, none, [1, 2, 3], ["x", "y"], [1, 1],
      none⟩
    (by decide) (by decide) (by decide)
  exact ⟨h.1, h.2.1 1 3 (by decide), h.2.2.1 "y" (by decide), h.2.2.2⟩

/-- Claim C6 (code bug, modelled intent): with numpy available (the module
    itself never imports it), construction fails with the empty-input error
    exactly when the NaN-filtered quantity list is empty, and succeeds on any
    input with at least one non-NaN entry (palette non-empty per the data
    model). -/
theorem claim_C6_model (quantities : List (Option ℚ)) (colors_in : List String)
    (p : Bool) (d : Option ℤ) (h2 : colors_in ≠ []) :
    (quantities.filterMap id = [] ↔
      Colorbin.init quantities colors_in p d = .error .emptyInput) ∧
    (quantities.filterMap id ≠ [] →
      ∃ cb, Colorbin.init quantities colors_in p d = .ok cb) := by
  have hsucc : quantities.filterMap id ≠ [] →
      ∃ cb, Colorbin.init quantities colors_in p d = .ok cb := by
    intro h1
    obtain ⟨cb, _, _, hinit, _⟩ := init_ok_spec quantities colors_in p d h1 h2
    exact ⟨cb, hinit⟩
  refine ⟨⟨?_, ?_⟩, hsucc⟩
  · intro h
    unfold Colorbin.init
    rw [h]
    rfl
  · intro h
    by_contra hne
    obtain ⟨cb, hcb⟩ := hsucc hne
    rw [hcb] at h
    exact absurd h (by simp)

unseal Rat.mul Rat.add Rat.sub Rat.inv in
theorem claim_C6_model_witness :
    Colorbin.init [none, none] ["#000000"] true none = .error .emptyInput ∧
    ∃ cb, Colorbin.init [some 1, none] ["#000000"] true none = .ok cb :=
  ⟨(claim_C6_model [none, none] ["#000000"] true none (by decide)).1.mp
      (by decide),
    (claim_C6_model [some 1, none] ["#000000"] true none (by decide)).2
      (by decide)⟩

/-- Claim C10: for any non-empty quantity list and any palette size `P ≥ 1`
    (including `P > n`), every index `int(i*(n/P))` used by the
    non-proportional fencepost computation is strictly below `n`, so the
    computation never fails with an out-of-range access. -/
theorem claim_C10 (s : List ℚ) (P : ℕ) (h1 : s ≠ []) (h2 : 0 < P) :
    (∀ i < P, i * s.length / P < s.length) ∧
    ∃ l, fencepostsNP s P = .ok l ∧ l.length = P + 1 := by
  have hn : 0 < s.length := List.length_pos.mpr h1
  exact ⟨fun i hi => np_idx_lt hn h2 hi,
    npPosts s P, fencepostsNP_eq h1 h2, npPosts_length s P⟩

theorem claim_C10_witness :
    2 * ([(5 : ℚ)] : List ℚ).length / 3 < ([(5 : ℚ)] : List ℚ).length ∧
    ∃ l, fencepostsNP [(5 : ℚ)] 3 = .ok l ∧ l.length = 3 + 1 := by
  have h := claim_C10 [(5 : ℚ)] 3 (by simp) (by omega)
  exact ⟨h.1 2 (by omega), h.2⟩

unseal Rat.mul Rat.add Rat.sub Rat.inv in
/-- Claim C5 (code bug): the constructor accepts `decimals` but line 38 of the
    source stores `self.decimals = None`, so with `decimals = 2` the fencepost
    `3.14159` is NOT rounded to `3.14` at construction, although
    `round(3.14159, 2) = 3.14`. -/
theorem claim_C5_eval :
    (Colorbin.init [some 0, some (314159/100000 : ℚ)] ["#808080"] true
      (some 2)).map (fun cb => cb.fenceposts) = .ok [0, 314159/100000] ∧
    pyRound (314159/100000) 2 = 157/50 ∧
    (314159/100000 : ℚ) ≠ 157/50 := by
  refine ⟨by decide, by decide, by decide⟩

theorem npPosts_getElem? {s : List ℚ} {P i : ℕ} (hi : i < P) :
    (npPosts s P)[i]? = some (s.getD (i * s.length / P) 0) := by
  unfold npPosts
  rw [List.getElem?_append_left (by simpa using hi), List.getElem?_map,
    List.getElem?_range hi]
  rfl

/-- Shared consequence of construction: output length and palette
    membership. -/
theorem init_colors_out_spec (quantities : List (Option ℚ))
    (colors_in : List String) (p : Bool) (d : Option ℤ) (cb : Colorbin)
    (h1 : quantities.filterMap id ≠ []) (h2 : colors_in ≠ [])
    (hcb : Colorbin.init quantities colors_in p d = .ok cb) :
    cb.colors_out.length = (quantities.filterMap id).length ∧
    ∀ c ∈ cb.colors_out, c ∈ colors_in := by
  obtain ⟨cb', bmin, bmax, hinit, _, _, _, _, _, _, _, _, houts, _⟩ :=
    init_ok_spec quantities colors_in p d h1 h2
  rw [hcb] at hinit
  injection hinit with hinit
  subst hinit
  have hP : 0 < colors_in.length := List.length_pos.mpr h2
  refine ⟨by rw [houts, List.length_map], ?_⟩
  intro c hc
  rw [houts] at hc
  obtain ⟨q, _, rfl⟩ := List.mem_map.mp hc
  have hb := binIndexSpec_lt hP cb.fenceposts q
  rw [List.getD_eq_getElem?_getD, List.getElem?_eq_getElem hb]
  simpa using List.getElem_mem hb

unseal Rat.mul Rat.add Rat.sub Rat.inv in
/-- Claim C4: in non-proportional mode, fencepost `i` (for `i < P`) is the
    sorted quantity at index `floor(i*n/P)` and the final fencepost is the
    maximum; in particular for `[1..10]` with a two-color palette the
    fenceposts are `[1, 6, 10]`, input `1` gets the first color and input `10`
    the second. -/
theorem claim_C4 :
    (∀ (quantities : List (Option ℚ)) (colors_in : List String)
        (d : Option ℤ) (cb : Colorbin),
        quantities.filterMap id ≠ [] → colors_in ≠ [] →
        Colorbin.init quantities colors_in false d = .ok cb →
        (∀ i < colors_in.length,
          cb.fenceposts.get? i
            = ((quantities.filterMap id).insertionSort (· ≤ ·)).get?
                (i * (quantities.filterMap id).length / colors_in.length)) ∧
        cb.fenceposts.getLast? = pyMax (quantities.filterMap id)) ∧
    (Colorbin.init
        [some 1, some 2, some 3, some 4, some 5, some 6, some 7, some 8,
          some 9, some 10] ["#000000", "#ffffff"] false none).map
        (fun cb => (cb.fenceposts, cb.colors_out.head?, cb.colors_out.getLast?))
      = .ok ([1, 6, 10], some "#000000", some "#ffffff") := by
  constructor
  · intro quantities colors_in d cb h1 h2 hcb
    obtain ⟨cb', bmin, bmax, hinit, _, hbmax, _, _, _, _, _, hfp, _⟩ :=
      init_ok_spec quantities colors_in false d h1 h2
    rw [hcb] at hinit
    injection hinit with hinit
    subst hinit
    have hP : 0 < colors_in.length := List.length_pos.mpr h2
    have hsorted := insertionSort_sorted (quantities.filterMap id)
    have hperm := insertionSort_perm (quantities.filterMap id)
    have hsne := insertionSort_ne_nil h1
    have hslen : ((quantities.filterMap id).insertionSort (· ≤ ·)).length
        = (quantities.filterMap id).length := hperm.length_eq
    simp only [Bool.false_eq_true, if_false] at hfp
    constructor
    · intro i hi
      have hidx : i * (quantities.filterMap id).length / colors_in.length
          < ((quantities.filterMap id).insertionSort (· ≤ ·)).length := by
        rw [hslen]
        exact np_idx_lt (List.length_pos.mpr h1) hP hi
      rw [hfp, List.get?_eq_getElem?, npPosts_getElem? hi, hslen,
        List.get?_eq_getElem?, List.getElem?_eq_getElem hidx]
      simp [List.getD_eq_getElem?_getD, List.getElem?_eq_getElem hidx]
    · rw [hfp, npPosts_getLast?, ← sorted_getLast_eq_pyMax hsorted hperm h1]
      exact (getLast?_eq_some_getD' hsne).symm
  · have hex : Colorbin.init
        [some 1, some 2, some 3, some 4, some 5, some 6, some 7, some 8,
          some 9, some 10] ["#000000", "#ffffff"] false none
        = .ok ⟨[1, 2, 3, 4, 5, 6, 7, 8, 9, 10], ["#000000", "#ffffff"], false,
          1, 11/2, 10, none, [1, 6, 10],
          ["#000000", "#000000", "#000000", "#000000", "#000000", "#ffffff",
            "#ffffff", "#ffffff", "#ffffff", "#ffffff"], [5, 5], none⟩ := by
      decide
    rw [hex]
    rfl

unseal Rat.mul Rat.add Rat.sub Rat.inv in
theorem claim_C4_witness :
    (([1, 2] : List ℚ).get? 0
      = ((([some 2, some 1] : List (Option ℚ)).filterMap id).insertionSort
          (· ≤ ·)).get?
          (0 * (([some 2, some 1] : List (Option ℚ)).filterMap id).length
            / (["a"] : List String).length)) ∧
    ([1, 2] : List ℚ).getLast?
      = pyMax (([some 2, some 1] : List (Option ℚ)).filterMap id) := by
  have h := claim_C4.1 [some 2, some 1] ["a"] none
    ⟨[2, 1], ["a"], false, 1, 3/2, 2, none, [1, 2], ["a", "a"], [2], none⟩
    (by decide) (by decide) (by decide)
  exact ⟨h.1 0 (by decide), h.2⟩

unseal Rat.mul Rat.add Rat.sub Rat.inv in
/-- Claim C7: on well-formed colors `calc_complements` produces one complement
    per entry of `colors_out`, choosing `color_below` when the decoded
    luminance `(0.299*R + 0.587*G + 0.114*B)/256` is below the cutoff and
    `color_above` otherwise; for a constructed Binner the complement list has
    the length of the filtered quantity sequence; with `cutoff = 1/2`,
    `#000000` yields `#ffffff` and `#ffffff` yields `#000000`. -/
theorem claim_C7 :
    (∀ (colors : List String) (cutoff : ℚ) (below above : String),
      (∀ c ∈ colors, wellFormedColor c = true) →
      calc_complements colors cutoff below above
        = .ok (colors.map fun c => if specLum c < cutoff then below else above)) ∧
    (∀ (quantities : List (Option ℚ)) (colors_in : List String) (p : Bool)
        (d : Option ℤ) (cutoff : ℚ) (below above : String) (cb : Colorbin),
      quantities.filterMap id ≠ [] → colors_in ≠ [] →
      Colorbin.init quantities colors_in p d = .ok cb →
      (∀ c ∈ colors_in, wellFormedColor c = true) →
      ∃ l, calc_complements cb.colors_out cutoff below above = .ok l ∧
        l.length = (quantities.filterMap id).length) ∧
    calc_complements ["#000000", "#ffffff"] (1/2) "#ffffff" "#000000"
      = .ok ["#ffffff", "#000000"] := by
  refine ⟨fun colors cutoff below above h => calc_complements_wellFormed h,
    ?_, by decide⟩
  intro quantities colors_in p d cutoff below above cb h1 h2 hcb hwf
  obtain ⟨hlen, hmem⟩ :=
    init_colors_out_spec quantities colors_in p d cb h1 h2 hcb
  have hcolwf : ∀ c ∈ cb.colors_out, wellFormedColor c = true :=
    fun c hc => hwf c (hmem c hc)
  refine ⟨_, calc_complements_wellFormed hcolwf, ?_⟩
  rw [List.length_map]
  exact hlen

unseal Rat.mul Rat.add Rat.sub Rat.inv in
theorem claim_C7_witness :
    calc_complements ["#102030"] (1/2) "#ffffff" "#000000"
      = .ok (["#102030"].map
          fun c => if specLum c < (1/2 : ℚ) then "#ffffff" else "#000000") :=
  claim_C7.1 ["#102030"] (1/2) "#ffffff" "#000000" (by decide)

unseal Rat.mul Rat.add Rat.sub Rat.inv in
/-- Claim C8 is false as stated: `calc_complements` does NOT fail on every
    color that is not a 7-character `#RRGGBB` value.  The malformed 9-character
    color `#aabbccdd` is accepted (its first three 2-character slices parse),
    producing a complement without any error. -/
theorem claim_C8_counterexample :
    calc_complements ["#aabbccdd"] (1/2) "#ffffff" "#000000"
      = .ok ["#000000"] ∧ wellFormedColor "#aabbccdd" = false := by
  exact ⟨by decide, by decide⟩

/-- Claim C8 (amended): `calc_complements` fails with `MalformedColorError`
    iff some color's three 2-character slices (characters 2-3, 4-5, 6-7) fail
    to parse as hexadecimal integers; every well-formed 7-character `#RRGGBB`
    color passes, but the failure condition is weaker than "not 7-character
    `#RRGGBB`". -/
theorem claim_C8_amended :
    (∀ (colors : List String) (cutoff : ℚ) (below above : String),
      (calc_complements colors cutoff below above = .error .malformedColor
        ↔ ∃ c ∈ colors, colorMalformed c = true)) ∧
    (∀ s : String, wellFormedColor s = true → colorMalformed s = false) :=
  ⟨fun colors cutoff below above => calc_complements_error_iff,
    fun s hs => wellFormed_not_malformed hs⟩

theorem claim_C8_amended_witness :
    (calc_complements ["zz"] 0 "a" "b" = .error .malformedColor
      ↔ ∃ c ∈ ["zz"], colorMalformed c = true) ∧
    colorMalformed "#00ff00" = false :=
  ⟨claim_C8_amended.1 ["zz"] 0 "a" "b",
    claim_C8_amended.2 "#00ff00" (by decide)⟩

/-- Claim C9: in non-proportional mode with pairwise-distinct quantities and
    `1 ≤ P ≤ n`, every bin count is `⌊n/P⌋` or `⌊n/P⌋ + 1`. -/
theorem claim_C9 (quantities : List (Option ℚ)) (colors_in : List String)
    (d : Option ℤ) (cb : Colorbin)
    (h1 : quantities.filterMap id ≠ []) (h2 : colors_in ≠ [])
    (hdist : (quantities.filterMap id).Pairwise (· ≠ ·))
    (hPn : colors_in.length ≤ (quantities.filterMap id).length)
    (hcb : Colorbin.init quantities colors_in false d = .ok cb) :
    ∀ c ∈ cb.bin_counts,
      c = (quantities.filterMap id).length / colors_in.length ∨
      c = (quantities.filterMap id).length / colors_in.length + 1 := by
  obtain ⟨cb', bmin, bmax, hinit, _, _, _, _, _, _, _, hfp, _, hlen, _, hgetD⟩ :=
    init_ok_spec quantities colors_in false d h1 h2
  rw [hcb] at hinit
  injection hinit with hinit
  subst hinit
  have hP : 0 < colors_in.length := List.length_pos.mpr h2
  have hsorted := insertionSort_sorted (quantities.filterMap id)
  have hperm := insertionSort_perm (quantities.filterMap id)
  have hslen : ((quantities.filterMap id).insertionSort (· ≤ ·)).length
      = (quantities.filterMap id).length := hperm.length_eq
  have hsd : ((quantities.filterMap id).insertionSort (· ≤ ·)).Pairwise
      (· ≠ ·) :=
    (hperm.pairwise_iff (fun h => Ne.symm h)).mpr hdist
  simp only [Bool.false_eq_true, if_false] at hfp
  intro c hc
  obtain ⟨b, hb, hcval⟩ := List.mem_iff_getElem.mp hc
  have hgb : cb.bin_counts.getD b 0 = c := by
    rw [List.getD_eq_getElem?_getD, List.getElem?_eq_getElem hb]
    simpa using hcval
  have hbP : b < colors_in.length := by
    rw [← hlen]
    exact hb
  have hcount := hgetD b
  rw [hfp] at hcount
  have hPermC := hperm.countP_eq
    (fun q => binIndexSpec colors_in.length
      (npPosts ((quantities.filterMap id).insertionSort (· ≤ ·))
        colors_in.length) q == b)
  have hwin := np_bin_countP hsorted hsd hP
    (by rw [hslen]; exact hPn) hbP
  have hcs : c = (b + 1)
        * ((quantities.filterMap id).insertionSort (· ≤ ·)).length
        / colors_in.length
      - b * ((quantities.filterMap id).insertionSort (· ≤ ·)).length
        / colors_in.length := by
    rw [← hgb, hcount, ← hPermC, hwin]
  rw [hslen] at hcs
  rw [hcs]
  exact @np_window_size (quantities.filterMap id).length colors_in.length b hP

unseal Rat.mul Rat.add Rat.sub Rat.inv in
theorem claim_C9_witness :
    (2 : ℕ) = (([some 1, some 2, some 3] : List (Option ℚ)).filterMap
        id).length / (["a", "b"] : List String).length ∨
    (2 : ℕ) = (([some 1, some 2, some 3] : List (Option ℚ)).filterMap
        id).length / (["a", "b"] : List String).length + 1 :=
  claim_C9 [some 1, some 2, some 3] ["a", "b"] none
    ⟨[1, 2, 3], ["a", "b"], false, 1, 2, 3, none, [1, 2, 3], ["a", "b", "b"],
      [1, 2], none⟩
    (by decide) (by decide) (by decide) (by decide) (by decide) 2 (by decide)
